import Mathlib

/-!
Verification of the tctl tool catalog against its specification.

This file gives a shallow embedding of the core of the tctl repository:
the Go string and filepath operations the core uses, the `Tool` /
`Registry` data model (`pkg/tool/tool.go`), the freshness evaluator
(`internal/freshness/freshness.go`), the docstring tag parser and
extractor (`internal/scanner` package, found in
`internal/config/config.go` of the source layout), the directory
scanner, and the recursive `ensureData` dependency resolver
(`cmd/tctl/cmd_add.go`, `get` command).

Effects are made explicit: the filesystem appears as a `stat` oracle
and as an in-memory directory tree, the subprocess runner as a function
from a tool to its (exit code, error) result, and the mutated
visited-set / the sequence of production invocations as explicit state
threaded through the resolver.  Recursion in Go that is guarded by the
visited-set is modelled with an explicit fuel parameter; exhausting the
fuel yields `none`, so "`none` is unreachable for sufficiently large
fuel" expresses termination of the Go recursion.
-/

namespace Tctl

/-! ## Go `strings` package primitives, modelled character-wise.

Strings are processed through their underlying `List Char`.  Go's
`unicode.IsSpace` also accepts a few non-ASCII code points; the inputs
of this program are ASCII, and the model uses the ASCII space set. -/

/-- The ASCII white-space set used by Go `strings.TrimSpace` and
`strings.Fields` (space, tab, newline, vertical tab, form feed, CR). -/
def isGoSpace (c : Char) : Bool :=
  c = ' ' || c = '\t' || c = '\n' || c = Char.ofNat 11 || c = Char.ofNat 12 || c = '\r'

/-- Drop white space from both ends of a character list. -/
def trimChars (l : List Char) : List Char :=
  ((l.dropWhile isGoSpace).reverse.dropWhile isGoSpace).reverse

/-- Go `strings.TrimSpace`. -/
def goTrim (s : String) : String :=
  String.mk (trimChars s.data)

/-- Go `strings.HasPrefix`. -/
def goHasPre (s p : String) : Bool :=
  p.data.isPrefixOf s.data

/-- Byte slicing `s[n:]` of Go (ASCII inputs, so bytes = chars). -/
def goDropStr (s : String) (n : Nat) : String :=
  String.mk (s.data.drop n)

/-- Byte slicing `s[:n]` of Go (ASCII inputs, so bytes = chars). -/
def goTakeStr (s : String) (n : Nat) : String :=
  String.mk (s.data.take n)

/-- One step of Go `strings.Fields`: fold from the right, growing the
current word or flushing it at white space. -/
def fieldsStep (c : Char) (acc : List (List Char) × List Char) : List (List Char) × List Char :=
  if isGoSpace c then
    (if acc.2 = [] then acc.1 else acc.2 :: acc.1, [])
  else
    (acc.1, c :: acc.2)

/-- Go `strings.Fields`: the maximal runs of non-white-space characters. -/
def goFields (s : String) : List String :=
  let r := s.data.foldr fieldsStep ([], [])
  ((if r.2 = [] then r.1 else r.2 :: r.1)).map String.mk

/-- Splitting step used by the `@keywords` handling: the scanner splits
on the regular expression `[,\s]+` and keeps non-empty tokens, which is
splitting on each comma-or-space and dropping empty pieces. -/
def keywordSep (c : Char) : Bool :=
  c = ',' || isGoSpace c

/-- One step of splitting on comma-or-space, folding from the right. -/
def keywordsStep (c : Char) (acc : List (List Char) × List Char) :
    List (List Char) × List Char :=
  if keywordSep c then
    (if acc.2 = [] then acc.1 else acc.2 :: acc.1, [])
  else
    (acc.1, c :: acc.2)

/-- The non-empty tokens of `s` between comma-or-space separators:
the result of Go `regexp [,\s]+ Split` followed by dropping empties,
as done by the `@keywords` case of the tag parser. -/
def goKeywordTokens (s : String) : List String :=
  let r := s.data.foldr keywordsStep ([], [])
  ((if r.2 = [] then r.1 else r.2 :: r.1)).map String.mk

/-- First index at which `sub` occurs in `l`, Go `strings.Index`. -/
def indexOfChars (l sub : List Char) : Option Nat :=
  match l with
  | [] => if sub = [] then some 0 else none
  | _ :: t => if sub.isPrefixOf l then some 0 else (indexOfChars t sub).map (· + 1)

/-- Go `strings.Contains`. -/
def goContains (s sub : String) : Bool :=
  (indexOfChars s.data sub.data).isSome

/-- Go `strings.Index` (the call sites only use it when the substring
occurs, so the `-1` of Go is mapped to `0` after an `isSome` guard). -/
def goIndex (s sub : String) : Nat :=
  (indexOfChars s.data sub.data).getD 0

/-- Go `strings.HasSuffix`. -/
def goHasSuf (s p : String) : Bool :=
  p.data.reverse.isPrefixOf s.data.reverse

/-- Go `strings.TrimSuffix`. -/
def goTrimSuffix (s suf : String) : String :=
  if goHasSuf s suf then goTakeStr s (s.data.length - suf.data.length) else s

/-- Go `strings.Join(lines, "\n")`. -/
def joinNL (lines : List String) : String :=
  String.intercalate "\n" lines

/-- Split a character list at every occurrence of `sep`. -/
def splitCharList (sep : Char) : List Char → List (List Char)
  | [] => [[]]
  | c :: rest =>
    if c = sep then [] :: splitCharList sep rest
    else
      match splitCharList sep rest with
      | [] => [[c]]
      | w :: ws => (c :: w) :: ws

/-- Go `strings.Split(s, "\n")`. -/
def splitLines (s : String) : List String :=
  (splitCharList '\n' s.data).map String.mk

/-! ## Go `path/filepath` primitives (Unix rules). -/

/-- Go `filepath.IsAbs` on Unix: a leading slash. -/
def goIsAbs (path : String) : Bool :=
  goHasPre path "/"

/-- One step of the element processing of Go `path.Clean`: empty and
`.` elements vanish, `..` pops the stack unless the stack is empty
(rooted: drop it; relative: keep it) or already ends in `..`. -/
def cleanPush (rooted : Bool) (out : List String) (c : String) : List String :=
  if c = "" || c = "." then out
  else if c = ".." then
    match out with
    | [] => if rooted then [] else [".."]
    | top :: rest => if top = ".." then c :: out else rest
  else c :: out

/-- Go `filepath.Clean` on Unix, computed over slash-separated elements. -/
def goClean (path : String) : String :=
  if path = "" then "." else
  let rooted := goIsAbs path
  let comps := ((splitCharList '/' path.data).map String.mk).foldl (cleanPush rooted) []
  let body := String.intercalate "/" comps.reverse
  if rooted then "/" ++ body
  else if body = "" then "." else body

/-- Go `filepath.Dir` on Unix: everything before the final slash,
cleaned; `.` when there is no slash. -/
def goDir (path : String) : String :=
  let comps := (splitCharList '/' path.data).map String.mk
  match comps with
  | [] => "."
  | [_] => goClean ""
  | _ => goClean (String.intercalate "/" comps.dropLast ++ "/")

/-- Go `filepath.Join` on Unix: drop leading empty elements, join the
rest with slashes and clean; all-empty input gives the empty string. -/
def goJoinPath (elems : List String) : String :=
  match elems.dropWhile (fun e => e = "") with
  | [] => ""
  | rest => goClean (String.intercalate "/" rest)

end Tctl

namespace Tctl

/-! ## The data model of `pkg/tool/tool.go`. -/

/-- Model of `tool.Arg`: one command-line argument of a tool's interface.  The
Go field `Type` is spelled `ArgType` here because `Type` is reserved. -/
structure Arg where
  Name : String
  ArgType : String
  Required : Bool
  Default : String
  Description : String
deriving Repr, DecidableEq

/-- Model of `tool.Tool`: one discoverable tool extracted from a source file.
The Go `Interface` field is a map from argument name to `Arg`; it is
modelled as an association list with map-overwrite insertion. -/
structure Tool where
  Name : String := ""
  Version : String := ""
  File : String := ""
  Language : String := ""
  Description : String := ""
  Provides : List String := []
  Requires : List String := []
  Output : String := ""
  Freshness : String := ""
  Capabilities : List String := []
  Boundaries : List String := []
  Keywords : List String := []
  Interface : List (String × Arg) := []
  Examples : List String := []
deriving Repr, DecidableEq

/-- Insert into the interface map: a repeated argument name silently
overwrites the earlier entry, as a Go map assignment does. -/
def mapInsert (m : List (String × Arg)) (k : String) (v : Arg) : List (String × Arg) :=
  m.filter (fun p => p.1 ≠ k) ++ [(k, v)]

/-- Model of `tool.Registry`: the index of discovered tools.  The Go registry is
a map keyed by tool name whose iteration order is unspecified; it is
modelled as a list of tools with name-keyed overwriting insertion, the
list order standing for the unspecified iteration order. -/
structure Registry where
  Tools : List Tool := []
deriving Repr, DecidableEq

/-- Model of `tool.NewRegistry`. -/
def NewRegistry : Registry := ⟨[]⟩

/-- Model of `Registry.Add`: a tool with an empty name is never inserted;
otherwise insertion is last-write-wins by name. -/
def Registry.Add (r : Registry) (t : Tool) : Registry :=
  if t.Name = "" then r
  else ⟨r.Tools.filter (fun u => u.Name ≠ t.Name) ++ [t]⟩

/-- Model of `Registry.Get`. -/
def Registry.Get (r : Registry) (name : String) : Option Tool :=
  r.Tools.find? (fun t => t.Name = name)

/-- Model of `Registry.FindByProvides`: the first tool (in iteration order)
whose provides-list contains the artifact. -/
def Registry.FindByProvides (r : Registry) (data : String) : Option Tool :=
  r.Tools.find? (fun t => t.Provides.contains data)

/-- Model of `Registry.All`. -/
def Registry.All (r : Registry) : List Tool :=
  r.Tools

/-! ## The freshness evaluator of `internal/freshness/freshness.go`.

The filesystem appears as a `stat` oracle mapping a path to the outcome
of `os.Stat`; times are integers in nanoseconds, as Go `time.Duration`
values are. -/

/-- Outcome of `os.Stat` for one path. -/
inductive StatResult where
  | notExist
  | statError (msg : String)
  | ok (modTime : Int)
deriving Repr, DecidableEq

/-- One hour as a Go `time.Duration` (nanoseconds). -/
def nsPerHour : Int := 3600 * 1000000000

/-- The `Thresholds` table: daily 24h, weekly 7·24h, monthly 30·24h,
manual 100·365·24h (effectively never stale). -/
def Thresholds : List (String × Int) :=
  [("daily", 24 * nsPerHour),
   ("weekly", 7 * 24 * nsPerHour),
   ("monthly", 30 * 24 * nsPerHour),
   ("manual", 365 * 24 * 100 * nsPerHour)]

/-- The threshold selected for a policy name: the table entry, with an
unrecognized name falling back to the `"manual"` threshold. -/
def thresholdFor (policy : String) : Int :=
  match (Thresholds.find? (fun p => p.1 = policy)).map Prod.snd with
  | some d => d
  | none => 365 * 24 * 100 * nsPerHour

/-- Model of `formatAge`: the human-readable age breakdown (minutes under an
hour, hours under a day, else whole days).  Go computes the hour and
minute counts through float64 and truncates; for the magnitudes
involved this is integer division truncating toward zero. -/
def formatAge (age : Int) (pre : String) : String :=
  let hours := age.tdiv nsPerHour
  let days := hours.tdiv 24
  if days = 0 then
    if hours = 0 then
      pre ++ " (" ++ toString (age.tdiv (60 * 1000000000)) ++ "m ago)"
    else pre ++ " (" ++ toString hours ++ "h ago)"
  else pre ++ " (" ++ toString days ++ "d ago)"

/-- Model of `freshness.Check`: missing file is not fresh with message
`"missing"`, another stat error is not fresh with the error message,
otherwise the age `now − modTime` is compared strictly against the
policy threshold. -/
def Check (stat : String → StatResult) (now : Int) (path policy : String) : Bool × String :=
  match stat path with
  | StatResult.notExist => (false, "missing")
  | StatResult.statError m => (false, "error: " ++ m)
  | StatResult.ok modTime =>
    let age := now - modTime
    let maxAge := thresholdFor policy
    if age < maxAge then (true, formatAge age "fresh")
    else (false, formatAge age "stale")

end Tctl

namespace Tctl

/-! ## The configuration model of `internal/config/config.go`
(the parts the resolver consumes). -/

/-- Model of `config.Intent`: a named group of artifact names ensured together. -/
structure Intent where
  Description : String := ""
  Includes : List String := []
deriving Repr, DecidableEq

/-- Model of `config.Global`, restricted to what `ensureData` reads: the intent
map, modelled as an association list with unique keys standing for the
Go map. -/
structure Global where
  Intents : List (String × Intent) := []
deriving Repr, DecidableEq

/-- Model of `Global.GetIntent`: map lookup by intent name. -/
def Global.GetIntent (g : Global) (name : String) : Option Intent :=
  (g.Intents.find? (fun p => p.1 = name)).map Prod.snd

/-! ## The dependency resolver `ensureData` of `cmd/tctl/cmd_add.go`
(`get` command).

The Go function mutates one `visited` map shared across the whole
recursive call tree and calls `runner.Run` for production.  The state
is made explicit: `visited` is the visited-set, and `runs` records, in
order, the target name on whose behalf each production (each
`runner.Run` invocation) happened — the instrumentation needed to state
"production happens at most once per target".  The runner collaborator
is a parameter `runRes` giving each tool's (exit code, error) result,
and freshness consults the `stat`/`now` oracle through `Check`.

Go's recursion has no fuel; the `Nat` fuel models the call stack, and a
`none` result means the fuel ran out.  Termination of the Go recursion
is the statement that sufficient fuel never returns `none`. -/

/-- The resolver state: the visited-set and the production trace. -/
structure EnsureState where
  visited : List String
  runs : List String
deriving Repr, DecidableEq

/-- Sequential ensuring of a list of targets (the `for` loops over
`intent.Includes` and `t.Requires`), short-circuiting on the first
failure, threading the state. -/
def ensureSeq (f : String → EnsureState → Option (Bool × EnsureState)) :
    List String → EnsureState → Option (Bool × EnsureState)
  | [], st => some (true, st)
  | item :: rest, st =>
    match f item st with
    | none => none
    | some (false, st') => some (false, st')
    | some (true, st') => ensureSeq f rest st'

/-- Model of `ensureData`: the recursive resolver.  Mirrors the Go source:
visited short-circuit, visited insertion, intent expansion, provider
lookup, freshness check of the resolved output path, dependency
ensuring, then production. -/
def ensureData (cfg : Global) (registry : Registry) (stat : String → StatResult)
    (now : Int) (runRes : Tool → Int × Option String) :
    Nat → String → EnsureState → Option (Bool × EnsureState)
  | 0, _, _ => none
  | fuel + 1, target, st =>
    if target ∈ st.visited then
      some (true, st)
    else
      let st1 : EnsureState := ⟨target :: st.visited, st.runs⟩
      match cfg.GetIntent target with
      | some intent =>
        ensureSeq (fun it s => ensureData cfg registry stat now runRes fuel it s)
          intent.Includes st1
      | none =>
        match registry.FindByProvides target with
        | none => some (false, st1)
        | some t =>
          if t.Output ≠ "" &&
              (Check stat now
                (if goIsAbs t.Output then t.Output
                 else goJoinPath [goDir t.File, "..", t.Output]) t.Freshness).1 then
            some (true, st1)
          else
            match ensureSeq (fun it s => ensureData cfg registry stat now runRes fuel it s)
                t.Requires st1 with
            | none => none
            | some (false, st2) => some (false, st2)
            | some (true, st2) =>
              let st3 : EnsureState := ⟨st2.visited, st2.runs ++ [target]⟩
              match runRes t with
              | (_, some _) => some (false, st3)
              | (code, none) => if code ≠ 0 then some (false, st3) else some (true, st3)

end Tctl

namespace Tctl

/-! ## Unfolding equations for the branches of `ensureData`. -/

/-- Second visit of a target already in the visited-set: immediate
success, state untouched. -/
theorem ensureData_visited_eq (cfg : Global) (reg : Registry) (stat : String → StatResult)
    (now : Int) (runRes : Tool → Int × Option String) (fuel : Nat) (target : String)
    (st : EnsureState) (hv : target ∈ st.visited) :
    ensureData cfg reg stat now runRes (fuel + 1) target st = some (true, st) := by
  simp [ensureData, hv]

/-- Intent expansion branch. -/
theorem ensureData_intent_eq (cfg : Global) (reg : Registry) (stat : String → StatResult)
    (now : Int) (runRes : Tool → Int × Option String) (fuel : Nat) (target : String)
    (st : EnsureState) (intent : Intent) (hv : target ∉ st.visited)
    (hgi : cfg.GetIntent target = some intent) :
    ensureData cfg reg stat now runRes (fuel + 1) target st =
      ensureSeq (fun it s => ensureData cfg reg stat now runRes fuel it s)
        intent.Includes ⟨target :: st.visited, st.runs⟩ := by
  simp [ensureData, hv, hgi]

/-- Unknown-data branch: no intent and no providing tool. -/
theorem ensureData_unknown_eq (cfg : Global) (reg : Registry) (stat : String → StatResult)
    (now : Int) (runRes : Tool → Int × Option String) (fuel : Nat) (target : String)
    (st : EnsureState) (hv : target ∉ st.visited) (hgi : cfg.GetIntent target = none)
    (hfp : reg.FindByProvides target = none) :
    ensureData cfg reg stat now runRes (fuel + 1) target st =
      some (false, ⟨target :: st.visited, st.runs⟩) := by
  simp [ensureData, hv, hgi, hfp]

/-- Tool branch: freshness gate, then dependencies, then production. -/
theorem ensureData_tool_eq (cfg : Global) (reg : Registry) (stat : String → StatResult)
    (now : Int) (runRes : Tool → Int × Option String) (fuel : Nat) (target : String)
    (st : EnsureState) (t : Tool) (hv : target ∉ st.visited)
    (hgi : cfg.GetIntent target = none) (hfp : reg.FindByProvides target = some t) :
    ensureData cfg reg stat now runRes (fuel + 1) target st =
      if t.Output ≠ "" &&
          (Check stat now
            (if goIsAbs t.Output then t.Output
             else goJoinPath [goDir t.File, "..", t.Output]) t.Freshness).1 then
        some (true, ⟨target :: st.visited, st.runs⟩)
      else
        match ensureSeq (fun it s => ensureData cfg reg stat now runRes fuel it s)
            t.Requires ⟨target :: st.visited, st.runs⟩ with
        | none => none
        | some (false, st2) => some (false, st2)
        | some (true, st2) =>
          match runRes t with
          | (_, some _) => some (false, ⟨st2.visited, st2.runs ++ [target]⟩)
          | (code, none) =>
            if code ≠ 0 then some (false, ⟨st2.visited, st2.runs ++ [target]⟩)
            else some (true, ⟨st2.visited, st2.runs ++ [target]⟩) := by
  simp [ensureData, hv, hgi, hfp]

end Tctl

namespace Tctl

/-! ## Invariants of the resolver state.

`EnsStep s s'` says: the visited-set only grows, the production trace
grows by a suffix `new` of pairwise-distinct targets, and every newly
produced target was unvisited at the start of the step and visited at
its end.  Every `ensureData` call preserves this shape, which yields
the at-most-once production guarantee. -/

/-- Relation between the resolver state before and after a call. -/
def EnsStep (s s' : EnsureState) : Prop :=
  s.visited ⊆ s'.visited ∧
  ∃ new, s'.runs = s.runs ++ new ∧ new.Nodup ∧
    ∀ x ∈ new, x ∉ s.visited ∧ x ∈ s'.visited

theorem ensStep_self (s : EnsureState) : EnsStep s s :=
  ⟨fun _ h => h, [], by simp, by simp, by simp⟩

theorem ensStep_trans {s t u : EnsureState} (h1 : EnsStep s t) (h2 : EnsStep t u) :
    EnsStep s u := by
  obtain ⟨hv1, n1, hr1, hd1, hm1⟩ := h1
  obtain ⟨hv2, n2, hr2, hd2, hm2⟩ := h2
  refine ⟨hv1.trans hv2, n1 ++ n2, by rw [hr2, hr1, List.append_assoc], ?_, ?_⟩
  · rw [List.nodup_append]
    exact ⟨hd1, hd2, fun x hx1 hx2 => (hm2 x hx2).1 ((hm1 x hx1).2)⟩
  · intro x hx
    rcases List.mem_append.mp hx with hx1 | hx2
    · exact ⟨(hm1 x hx1).1, hv2 ((hm1 x hx1).2)⟩
    · exact ⟨fun hxs => (hm2 x hx2).1 (hv1 hxs), (hm2 x hx2).2⟩

/-- Entering a target: its insertion into the visited-set is an
`EnsStep` with an empty production suffix. -/
theorem ensStep_insert (target : String) (st : EnsureState) :
    EnsStep st ⟨target :: st.visited, st.runs⟩ :=
  ⟨List.subset_cons_self target st.visited, [], by simp, by simp, by simp⟩

theorem ensureSeq_ensStep {f : String → EnsureState → Option (Bool × EnsureState)}
    (hf : ∀ x s b s', f x s = some (b, s') → EnsStep s s') :
    ∀ items st b st', ensureSeq f items st = some (b, st') → EnsStep st st' := by
  intro items
  induction items with
  | nil =>
    intro st b st' h
    simp only [ensureSeq, Option.some.injEq, Prod.mk.injEq] at h
    rw [← h.2]
    exact ensStep_self st
  | cons x rest ihr =>
    intro st b st' h
    rw [ensureSeq] at h
    cases hfx : f x st with
    | none => rw [hfx] at h; cases h
    | some p =>
      obtain ⟨b1, st1⟩ := p
      rw [hfx] at h
      cases b1 with
      | false =>
        simp only [Option.some.injEq, Prod.mk.injEq] at h
        rw [← h.2]
        exact hf x st false st1 hfx
      | true => exact ensStep_trans (hf x st true st1 hfx) (ihr st1 b st' h)

theorem ensureData_ensStep (cfg : Global) (reg : Registry) (stat : String → StatResult)
    (now : Int) (runRes : Tool → Int × Option String) :
    ∀ fuel target st b st',
      ensureData cfg reg stat now runRes fuel target st = some (b, st') → EnsStep st st' := by
  intro fuel
  induction fuel with
  | zero => intro target st b st' h; simp [ensureData] at h
  | succ fuel ih =>
    intro target st b st' h
    by_cases hv : target ∈ st.visited
    · rw [ensureData_visited_eq cfg reg stat now runRes fuel target st hv] at h
      simp only [Option.some.injEq, Prod.mk.injEq] at h
      rw [← h.2]
      exact ensStep_self st
    · cases hgi : cfg.GetIntent target with
      | some intent =>
        rw [ensureData_intent_eq cfg reg stat now runRes fuel target st intent hv hgi] at h
        exact ensStep_trans (ensStep_insert target st)
          (ensureSeq_ensStep (fun x s b' s' hx => ih x s b' s' hx) intent.Includes _ b st' h)
      | none =>
        cases hfp : reg.FindByProvides target with
        | none =>
          rw [ensureData_unknown_eq cfg reg stat now runRes fuel target st hv hgi hfp] at h
          simp only [Option.some.injEq, Prod.mk.injEq] at h
          rw [← h.2]
          exact ensStep_insert target st
        | some t =>
          rw [ensureData_tool_eq cfg reg stat now runRes fuel target st t hv hgi hfp] at h
          by_cases hfresh : (t.Output ≠ "" &&
              (Check stat now
                (if goIsAbs t.Output then t.Output
                 else goJoinPath [goDir t.File, "..", t.Output]) t.Freshness).1) = true
          · rw [if_pos hfresh] at h
            simp only [Option.some.injEq, Prod.mk.injEq] at h
            rw [← h.2]
            exact ensStep_insert target st
          · rw [if_neg hfresh] at h
            cases hseq : ensureSeq (fun it s => ensureData cfg reg stat now runRes fuel it s)
                t.Requires ⟨target :: st.visited, st.runs⟩ with
            | none => simp only [hseq] at h; exact Option.noConfusion h
            | some p =>
              obtain ⟨b2, st2⟩ := p
              simp only [hseq] at h
              have hdeps : EnsStep (⟨target :: st.visited, st.runs⟩ : EnsureState) st2 :=
                ensureSeq_ensStep (fun x s b' s' hx => ih x s b' s' hx) t.Requires _ b2 st2 hseq
              cases b2 with
              | false =>
                simp only [Option.some.injEq, Prod.mk.injEq] at h
                rw [← h.2]
                exact ensStep_trans (ensStep_insert target st) hdeps
              | true =>
                -- production happened for `target`: the trace grows by it
                have hstep3 : EnsStep st ⟨st2.visited, st2.runs ++ [target]⟩ := by
                  obtain ⟨hv2, n2, hr2, hd2, hm2⟩ := hdeps
                  refine ⟨fun x hx => hv2 (List.mem_cons_of_mem _ hx), n2 ++ [target],
                    ?_, ?_, ?_⟩
                  · simp only [hr2]
                    simp [List.append_assoc]
                  · rw [List.nodup_append]
                    refine ⟨hd2, List.nodup_singleton target, fun x hx2 hxt => ?_⟩
                    rw [List.mem_singleton] at hxt
                    subst hxt
                    exact (hm2 x hx2).1 (List.mem_cons_self _ _)
                  · intro x hx
                    rcases List.mem_append.mp hx with hx2 | hxt
                    · exact ⟨fun hxs => (hm2 x hx2).1 (List.mem_cons_of_mem _ hxs),
                        (hm2 x hx2).2⟩
                    · rw [List.mem_singleton] at hxt
                      subst hxt
                      exact ⟨hv, hv2 (List.mem_cons_self _ _)⟩
                cases hrun : runRes t with
                | mk code err =>
                  simp only [hrun] at h
                  cases err with
                  | some e =>
                    simp only [Option.some.injEq, Prod.mk.injEq] at h
                    rw [← h.2]
                    exact hstep3
                  | none =>
                    by_cases hcode : code ≠ 0
                    · simp only [if_pos hcode, Option.some.injEq, Prod.mk.injEq] at h
                      rw [← h.2]
                      exact hstep3
                    · simp only [if_neg hcode, Option.some.injEq, Prod.mk.injEq] at h
                      rw [← h.2]
                      exact hstep3

end Tctl

namespace Tctl

/-! ## Termination of the resolver.

Every recursive call of `ensureData` targets a member of the includes
list of some intent or the requires list of some tool; the visited-set
grows by one unvisited such member before recursing.  Hence fuel
exceeding the number of unvisited candidate names can never run out,
which is exactly termination of the un-fuelled Go recursion. -/

/-- All names a recursive call can target: every include of every
intent and every requirement of every tool. -/
def ensureCandidates (cfg : Global) (reg : Registry) : List String :=
  cfg.Intents.flatMap (fun p => p.2.Includes) ++ reg.Tools.flatMap (fun t => t.Requires)

/-- Number of candidate occurrences not yet visited. -/
def unvisitedCount (cfg : Global) (reg : Registry) (visited : List String) : Nat :=
  ((ensureCandidates cfg reg).filter (fun x => decide (x ∉ visited))).length

theorem length_filter_mono {α : Type} (l : List α) (p q : α → Bool)
    (h : ∀ a, p a = true → q a = true) :
    (l.filter p).length ≤ (l.filter q).length := by
  induction l with
  | nil => simp
  | cons a t iht =>
    cases hpa : p a with
    | true =>
      have hqa := h a hpa
      simp only [List.filter_cons, hpa, hqa, if_true, List.length_cons]
      exact Nat.succ_le_succ iht
    | false =>
      cases hqa : q a with
      | true =>
        simp only [List.filter_cons, hpa, hqa, if_true, if_false, List.length_cons]
        exact Nat.le_succ_of_le iht
      | false =>
        simp only [List.filter_cons, hpa, hqa, if_false]
        exact iht

theorem unvisitedCount_mono (cfg : Global) (reg : Registry) {v w : List String}
    (h : v ⊆ w) : unvisitedCount cfg reg w ≤ unvisitedCount cfg reg v := by
  refine length_filter_mono _ _ _ ?_
  intro a ha
  simp only [decide_eq_true_eq] at ha ⊢
  exact fun hav => ha (h hav)

theorem length_filter_notmem_insert {l : List String} {target : String} {v : List String}
    (hc : target ∈ l) (hv : target ∉ v) :
    (l.filter (fun x => decide (x ∉ target :: v))).length + 1 ≤
      (l.filter (fun x => decide (x ∉ v))).length := by
  induction l with
  | nil => cases hc
  | cons a t iht =>
    by_cases hat : a = target
    · subst hat
      have h1 : decide (a ∉ a :: v) = false := by simp
      have h2 : decide (a ∉ v) = true := by simp [hv]
      simp only [List.filter_cons, h1, h2, if_false, if_true, List.length_cons]
      refine Nat.succ_le_succ (length_filter_mono t _ _ ?_)
      intro x hx
      simp only [decide_eq_true_eq, List.mem_cons] at hx ⊢
      exact fun hxv => hx (Or.inr hxv)
    · have hct : target ∈ t := by
        rcases List.mem_cons.mp hc with h | h
        · exact absurd h.symm hat
        · exact h
      have hsame : decide (a ∉ target :: v) = decide (a ∉ v) := by
        by_cases hav : a ∈ v
        · simp [hav]
        · simp [hav, List.mem_cons, hat]
      cases h2 : decide (a ∉ v) with
      | true =>
        simp only [List.filter_cons, hsame, h2, if_true, List.length_cons]
        exact Nat.succ_le_succ (iht hct)
      | false =>
        simp only [List.filter_cons, hsame, h2, if_false]
        exact iht hct

theorem unvisitedCount_insert (cfg : Global) (reg : Registry) {target : String}
    {v : List String} (hc : target ∈ ensureCandidates cfg reg) (hv : target ∉ v) :
    unvisitedCount cfg reg (target :: v) + 1 ≤ unvisitedCount cfg reg v :=
  length_filter_notmem_insert hc hv

/-- Includes of a known intent are candidates. -/
theorem intent_includes_candidates (cfg : Global) (reg : Registry) {target : String}
    {intent : Intent} (hgi : cfg.GetIntent target = some intent) :
    ∀ x ∈ intent.Includes, x ∈ ensureCandidates cfg reg := by
  intro x hx
  unfold Global.GetIntent at hgi
  cases hfind : cfg.Intents.find? (fun p => p.1 = target) with
  | none => rw [hfind] at hgi; cases hgi
  | some pr =>
    rw [hfind] at hgi
    simp only [Option.map_some', Option.some.injEq] at hgi
    have hmem := List.mem_of_find?_eq_some hfind
    refine List.mem_append.mpr (Or.inl ?_)
    exact List.mem_flatMap.mpr ⟨pr, hmem, by rw [hgi]; exact hx⟩

/-- Requirements of a providing tool are candidates. -/
theorem tool_requires_candidates (cfg : Global) (reg : Registry) {target : String}
    {t : Tool} (hfp : reg.FindByProvides target = some t) :
    ∀ x ∈ t.Requires, x ∈ ensureCandidates cfg reg := by
  intro x hx
  have hmem := List.mem_of_find?_eq_some hfp
  exact List.mem_append.mpr (Or.inr (List.mem_flatMap.mpr ⟨t, hmem, hx⟩))

end Tctl

namespace Tctl

/-- Branch analysis for an unvisited target: the call returns a result
(`isSome`) provided every sequential sub-resolution over candidate
lists at the inner fuel level does. -/
theorem ensureData_isSome_of_seq (cfg : Global) (reg : Registry) (stat : String → StatResult)
    (now : Int) (runRes : Tool → Int × Option String) (fuel : Nat) (target : String)
    (st : EnsureState) (hv : target ∉ st.visited)
    (hseqOK : ∀ items : List String, (∀ x ∈ items, x ∈ ensureCandidates cfg reg) →
      (ensureSeq (fun it s => ensureData cfg reg stat now runRes fuel it s) items
        ⟨target :: st.visited, st.runs⟩).isSome = true) :
    (ensureData cfg reg stat now runRes (fuel + 1) target st).isSome = true := by
  cases hgi : cfg.GetIntent target with
  | some intent =>
    rw [ensureData_intent_eq cfg reg stat now runRes fuel target st intent hv hgi]
    exact hseqOK intent.Includes (intent_includes_candidates cfg reg hgi)
  | none =>
    cases hfp : reg.FindByProvides target with
    | none =>
      rw [ensureData_unknown_eq cfg reg stat now runRes fuel target st hv hgi hfp]
      rfl
    | some t =>
      rw [ensureData_tool_eq cfg reg stat now runRes fuel target st t hv hgi hfp]
      by_cases hfresh : (t.Output ≠ "" &&
          (Check stat now
            (if goIsAbs t.Output then t.Output
             else goJoinPath [goDir t.File, "..", t.Output]) t.Freshness).1) = true
      · rw [if_pos hfresh]; rfl
      · rw [if_neg hfresh]
        have hseqS := hseqOK t.Requires (tool_requires_candidates cfg reg hfp)
        cases hseq : ensureSeq (fun it s => ensureData cfg reg stat now runRes fuel it s)
            t.Requires ⟨target :: st.visited, st.runs⟩ with
        | none => rw [hseq] at hseqS; cases hseqS
        | some p =>
          obtain ⟨b2, st2⟩ := p
          cases b2 with
          | false => rfl
          | true =>
            cases hrun : runRes t with
            | mk code err =>
              cases err with
              | some e => rfl
              | none =>
                by_cases hcode : code ≠ 0 <;> simp [hcode]

/-- Joint fuel-sufficiency: a candidate target, or a list of candidate
targets, resolves without running out of fuel once the fuel exceeds the
number of unvisited candidates. -/
theorem ensureData_sufficient_fuel (cfg : Global) (reg : Registry) (stat : String → StatResult)
    (now : Int) (runRes : Tool → Int × Option String) :
    ∀ fuel : Nat,
      (∀ target st, target ∈ ensureCandidates cfg reg →
        unvisitedCount cfg reg st.visited + 1 ≤ fuel →
        (ensureData cfg reg stat now runRes fuel target st).isSome = true) ∧
      (∀ (items : List String) st, (∀ x ∈ items, x ∈ ensureCandidates cfg reg) →
        unvisitedCount cfg reg st.visited + 1 ≤ fuel →
        (ensureSeq (fun it s => ensureData cfg reg stat now runRes fuel it s)
          items st).isSome = true) := by
  intro fuel
  induction fuel with
  | zero =>
    constructor
    · intro target st _ hb; omega
    · intro items st _ hb; omega
  | succ fuel ih =>
    obtain ⟨ihE, ihS⟩ := ih
    have hE : ∀ target st, target ∈ ensureCandidates cfg reg →
        unvisitedCount cfg reg st.visited + 1 ≤ fuel + 1 →
        (ensureData cfg reg stat now runRes (fuel + 1) target st).isSome = true := by
      intro target st hc hb
      by_cases hv : target ∈ st.visited
      · rw [ensureData_visited_eq cfg reg stat now runRes fuel target st hv]; rfl
      · refine ensureData_isSome_of_seq cfg reg stat now runRes fuel target st hv ?_
        intro items hmem
        refine ihS items ⟨target :: st.visited, st.runs⟩ hmem ?_
        show unvisitedCount cfg reg (target :: st.visited) + 1 ≤ fuel
        have := unvisitedCount_insert cfg reg hc hv
        omega
    refine ⟨hE, ?_⟩
    intro items
    induction items with
    | nil => intro st _ _; rfl
    | cons x rest ihr =>
      intro st hmem hb
      rw [ensureSeq]
      have hx := hE x st (hmem x (List.mem_cons_self x rest)) hb
      cases hxe : ensureData cfg reg stat now runRes (fuel + 1) x st with
      | none => rw [hxe] at hx; cases hx
      | some p =>
        obtain ⟨b1, st1⟩ := p
        cases b1 with
        | false => rfl
        | true =>
          refine ihr st1 (fun y hy => hmem y (List.mem_cons_of_mem x hy)) ?_
          have hsub := (ensureData_ensStep cfg reg stat now runRes (fuel + 1) x st true st1 hxe).1
          have := unvisitedCount_mono cfg reg hsub
          omega

end Tctl

namespace Tctl

/-! ## Concrete configurations used by the witnesses. -/

/-- Empty intent configuration. -/
def emptyCfg : Global := ⟨[]⟩

/-- Diamond dependency: `x` requires `y` and `z`, and both `y` and `z`
require `w`, so `w` is reachable along two different paths. -/
def diamondReg : Registry :=
  ⟨[{ Name := "a", Provides := ["x"], Requires := ["y", "z"] },
    { Name := "b", Provides := ["y"], Requires := ["w"] },
    { Name := "c", Provides := ["z"], Requires := ["w"] },
    { Name := "d", Provides := ["w"] }]⟩

/-- Direct dependency cycle: the tool providing `a` requires `b` and
the tool providing `b` requires `a`. -/
def cycleReg : Registry :=
  ⟨[{ Name := "A", Provides := ["a"], Requires := ["b"] },
    { Name := "B", Provides := ["b"], Requires := ["a"] }]⟩

/-- A tool with a declared relative output, a daily policy and an
unsatisfiable requirement. -/
def freshTool : Tool :=
  { Name := "b", Provides := ["y"], Requires := ["missing-dep"],
    Output := "out.csv", Freshness := "daily", File := "/home/u/tools/b.py" }

/-- Registry holding only `freshTool`. -/
def freshReg : Registry := ⟨[freshTool]⟩

/-- A filesystem with no files at all. -/
def statAllMissing : String → StatResult := fun _ => StatResult.notExist

/-- A filesystem in which exactly `/home/u/out.csv` exists, just
modified. -/
def statFreshOut : String → StatResult := fun p =>
  if p = "/home/u/out.csv" then StatResult.ok 0 else StatResult.notExist

/-- A runner for which every tool succeeds. -/
def runAllOk : Tool → Int × Option String := fun _ => (0, none)

/-! ## Claims about the resolver. -/

/-- C1.  For one top-level resolver invocation (a single shared
visited-set, starting empty), `ensureData` performs production — one
entry appended to the `runs` trace per `runner.Run` invocation — at
most once per unique target across the whole recursive call tree: the
final trace has no duplicates, for every configuration, registry,
filesystem, runner and fuel, hence also under diamond dependencies. -/
theorem ensureData_production_once (cfg : Global) (reg : Registry)
    (stat : String → StatResult) (now : Int) (runRes : Tool → Int × Option String)
    (fuel : Nat) (target : String) (b : Bool) (st' : EnsureState)
    (h : ensureData cfg reg stat now runRes fuel target ⟨[], []⟩ = some (b, st')) :
    st'.runs.Nodup := by
  obtain ⟨-, new, hr, hd, -⟩ :=
    ensureData_ensStep cfg reg stat now runRes fuel target ⟨[], []⟩ b st' h
  rw [hr]
  simpa using hd

/-- Witness for C1 on the diamond dependency: resolving `x` produces
`w`, `y`, `z`, `x` — `w` exactly once although reached twice — and the
trace is duplicate-free by the theorem. -/
theorem ensureData_production_once_witness :
    ensureData emptyCfg diamondReg statAllMissing 0 runAllOk 10 "x" ⟨[], []⟩
        = some (true, ⟨["z", "w", "y", "x"], ["w", "y", "z", "x"]⟩) ∧
      (EnsureState.mk ["z", "w", "y", "x"] ["w", "y", "z", "x"]).runs.Nodup :=
  ⟨by decide,
   ensureData_production_once emptyCfg diamondReg statAllMissing 0 runAllOk 10 "x" true
     ⟨["z", "w", "y", "x"], ["w", "y", "z", "x"]⟩ (by decide)⟩

/-- C2.  For every registry and intent configuration — in particular
any containing a requires/provides or intent cycle — `ensureData`
terminates: with fuel exceeding the number of unvisited candidate
names by two the fuel never runs out (`isSome`), which is termination
of the un-fuelled Go recursion; and the second visit of a target
already in the visited-set returns success immediately with the state
untouched, instead of recursing. -/
theorem ensureData_cycle_safe (cfg : Global) (reg : Registry) (stat : String → StatResult)
    (now : Int) (runRes : Tool → Int × Option String) :
    (∀ fuel target st, unvisitedCount cfg reg st.visited + 2 ≤ fuel →
        (ensureData cfg reg stat now runRes fuel target st).isSome = true) ∧
    (∀ fuel target st, target ∈ st.visited →
        ensureData cfg reg stat now runRes (fuel + 1) target st = some (true, st)) := by
  constructor
  · intro fuel target st hb
    cases fuel with
    | zero => omega
    | succ f =>
      by_cases hv : target ∈ st.visited
      · rw [ensureData_visited_eq cfg reg stat now runRes f target st hv]; rfl
      · refine ensureData_isSome_of_seq cfg reg stat now runRes f target st hv ?_
        intro items hmem
        refine (ensureData_sufficient_fuel cfg reg stat now runRes f).2 items
          ⟨target :: st.visited, st.runs⟩ hmem ?_
        show unvisitedCount cfg reg (target :: st.visited) + 1 ≤ f
        have h1 : unvisitedCount cfg reg (target :: st.visited) ≤
            unvisitedCount cfg reg st.visited :=
          unvisitedCount_mono cfg reg (List.subset_cons_self target st.visited)
        omega
  · intro fuel target st hv
    exact ensureData_visited_eq cfg reg stat now runRes fuel target st hv

/-- Witness for C2 on the direct cycle `a ↔ b`: the resolution of `a`
completes within the bound, and a second visit of `a` short-circuits. -/
theorem ensureData_cycle_safe_witness :
    (ensureData emptyCfg cycleReg statAllMissing 0 runAllOk 4 "a" ⟨[], []⟩).isSome = true ∧
      ensureData emptyCfg cycleReg statAllMissing 0 runAllOk 1 "a" ⟨["a"], []⟩
        = some (true, ⟨["a"], []⟩) :=
  ⟨(ensureData_cycle_safe emptyCfg cycleReg statAllMissing 0 runAllOk).1 4 "a" ⟨[], []⟩
      (by decide),
   (ensureData_cycle_safe emptyCfg cycleReg statAllMissing 0 runAllOk).2 0 "a" ⟨["a"], []⟩
      (by decide)⟩

/-- C8.  A target that is not visited, names no intent and is provided
by no tool makes `ensureData` fail, and the execution collaborator is
never invoked for that call: the result is failure with only the
visited-set extended, and the production trace of any result equals
the incoming one. -/
theorem ensureData_unknown_data (cfg : Global) (reg : Registry) (stat : String → StatResult)
    (now : Int) (runRes : Tool → Int × Option String) (fuel : Nat) (target : String)
    (st : EnsureState) (h1 : target ∉ st.visited) (h2 : cfg.GetIntent target = none)
    (h3 : reg.FindByProvides target = none) :
    ensureData cfg reg stat now runRes (fuel + 1) target st =
        some (false, ⟨target :: st.visited, st.runs⟩) ∧
      ∀ b st', ensureData cfg reg stat now runRes (fuel + 1) target st = some (b, st') →
        st'.runs = st.runs := by
  have heq := ensureData_unknown_eq cfg reg stat now runRes fuel target st h1 h2 h3
  refine ⟨heq, ?_⟩
  intro b st' h
  rw [heq] at h
  simp only [Option.some.injEq, Prod.mk.injEq] at h
  rw [← h.2]

/-- Witness for C8: an empty registry and an unknown artifact. -/
theorem ensureData_unknown_data_witness :
    ensureData emptyCfg NewRegistry statAllMissing 0 runAllOk 1 "unknown-artifact" ⟨[], []⟩
      = some (false, ⟨["unknown-artifact"], []⟩) :=
  (ensureData_unknown_data emptyCfg NewRegistry statAllMissing 0 runAllOk 0
    "unknown-artifact" ⟨[], []⟩ (by decide) (by decide) (by decide)).1

/-- C10.  When the providing tool declares an output that evaluates as
fresh, `ensureData` returns success immediately: the visited-set gains
only the target itself (no requirement is visited) and the production
trace is unchanged (the execution collaborator is not invoked), so
stale or unsatisfiable dependencies of a fresh target cause no failure
and are not visited. -/
theorem ensureData_fresh_skips_deps (cfg : Global) (reg : Registry)
    (stat : String → StatResult) (now : Int) (runRes : Tool → Int × Option String)
    (fuel : Nat) (target : String) (st : EnsureState) (t : Tool)
    (h1 : target ∉ st.visited) (h2 : cfg.GetIntent target = none)
    (h3 : reg.FindByProvides target = some t) (h4 : t.Output ≠ "")
    (h5 : (Check stat now
        (if goIsAbs t.Output then t.Output
         else goJoinPath [goDir t.File, "..", t.Output]) t.Freshness).1 = true) :
    ensureData cfg reg stat now runRes (fuel + 1) target st =
      some (true, ⟨target :: st.visited, st.runs⟩) := by
  rw [ensureData_tool_eq cfg reg stat now runRes fuel target st t h1 h2 h3]
  rw [if_pos (by simp [h4, h5])]

/-- Witness for C10: the fresh output of `freshTool` short-circuits a
resolution of `y` to success although its requirement `missing-dep`
is provided by nothing. -/
theorem ensureData_fresh_skips_deps_witness :
    ensureData emptyCfg freshReg statFreshOut 0 runAllOk 1 "y" ⟨[], []⟩
      = some (true, ⟨["y"], []⟩) :=
  ensureData_fresh_skips_deps emptyCfg freshReg statFreshOut 0 runAllOk 0 "y" ⟨[], []⟩
    freshTool (by decide) (by decide) (by decide) (by decide) (by decide)

/-- C5.  When the tool found for a target declares a non-empty output
path, `ensureData` evaluates freshness of exactly the resolved path:
the declared path itself when absolute, otherwise the join of the
parent of the tool's containing directory (`Dir` of the tool's file
followed by `..`) with the declared relative output — and the rest of
the call branches on that evaluation. -/
theorem ensureData_output_path (cfg : Global) (reg : Registry) (stat : String → StatResult)
    (now : Int) (runRes : Tool → Int × Option String) (fuel : Nat) (target : String)
    (st : EnsureState) (t : Tool) (h1 : target ∉ st.visited)
    (h2 : cfg.GetIntent target = none) (h3 : reg.FindByProvides target = some t)
    (h4 : t.Output ≠ "") :
    ensureData cfg reg stat now runRes (fuel + 1) target st =
      if (Check stat now
            (if goIsAbs t.Output then t.Output
             else goJoinPath [goDir t.File, "..", t.Output]) t.Freshness).1 then
        some (true, ⟨target :: st.visited, st.runs⟩)
      else
        match ensureSeq (fun it s => ensureData cfg reg stat now runRes fuel it s)
            t.Requires ⟨target :: st.visited, st.runs⟩ with
        | none => none
        | some (false, st2) => some (false, st2)
        | some (true, st2) =>
          match runRes t with
          | (_, some _) => some (false, ⟨st2.visited, st2.runs ++ [target]⟩)
          | (code, none) =>
            if code ≠ 0 then some (false, ⟨st2.visited, st2.runs ++ [target]⟩)
            else some (true, ⟨st2.visited, st2.runs ++ [target]⟩) := by
  rw [ensureData_tool_eq cfg reg stat now runRes fuel target st t h1 h2 h3]
  have hc : (t.Output ≠ "" &&
      (Check stat now
        (if goIsAbs t.Output then t.Output
         else goJoinPath [goDir t.File, "..", t.Output]) t.Freshness).1) =
      (Check stat now
        (if goIsAbs t.Output then t.Output
         else goJoinPath [goDir t.File, "..", t.Output]) t.Freshness).1 := by
    simp [h4]
  rw [hc]

/-- Witness for C5: for `freshTool` (file `/home/u/tools/b.py`,
relative output `out.csv`) the freshness consulted is that of
`/home/u/out.csv` — one level above the file's directory — and the
resolution evaluates accordingly. -/
theorem ensureData_output_path_witness :
    ensureData emptyCfg freshReg statFreshOut 0 runAllOk 1 "y" ⟨[], []⟩
      = some (true, ⟨["y"], []⟩) := by
  rw [ensureData_output_path emptyCfg freshReg statFreshOut 0 runAllOk 0 "y" ⟨[], []⟩
    freshTool (by decide) (by decide) (by decide) (by decide)]
  decide

end Tctl

namespace Tctl

/-- C4.  The freshness check: a missing file yields
`(false, "missing")`; a file with a modification time is fresh exactly
when its age `now − modTime` is strictly below the policy threshold —
so age equal to the threshold is stale; the thresholds are daily 24h,
weekly 168h, monthly 720h; and an unrecognized policy name falls back
to the manual threshold. -/
theorem freshness_check_policy (stat : String → StatResult) (now : Int)
    (path policy : String) :
    (stat path = StatResult.notExist → Check stat now path policy = (false, "missing")) ∧
    (∀ modTime, stat path = StatResult.ok modTime →
        ((Check stat now path policy).1 = true ↔ now - modTime < thresholdFor policy)) ∧
    (∀ modTime, stat path = StatResult.ok modTime →
        now - modTime = thresholdFor policy → (Check stat now path policy).1 = false) ∧
    thresholdFor "daily" = 24 * nsPerHour ∧
    thresholdFor "weekly" = 168 * nsPerHour ∧
    thresholdFor "monthly" = 720 * nsPerHour ∧
    (policy ∉ ["daily", "weekly", "monthly", "manual"] →
        thresholdFor policy = thresholdFor "manual") := by
  refine ⟨?_, ?_, ?_, by decide, by decide, by decide, ?_⟩
  · intro h
    simp [Check, h]
  · intro modTime h
    simp only [Check, h]
    by_cases hlt : now - modTime < thresholdFor policy
    · simp [hlt]
    · simp [hlt]
  · intro modTime h heq
    simp only [Check, h]
    rw [heq]
    simp
  · intro hpol
    simp only [List.mem_cons, List.not_mem_nil, or_false, not_or] at hpol
    obtain ⟨hd, hw, hm, hmn⟩ := hpol
    simp [thresholdFor, Thresholds, List.find?, Ne.symm hd, Ne.symm hw, Ne.symm hm,
      Ne.symm hmn]

/-- Witness for C4 at the daily policy: a missing file reports
`missing`, and a file exactly 24 hours old is stale. -/
theorem freshness_check_policy_witness :
    Check (fun _ => StatResult.notExist) 0 "p" "daily" = (false, "missing") ∧
      (Check (fun _ => StatResult.ok 0) (24 * nsPerHour) "p" "daily").1 = false :=
  ⟨(freshness_check_policy (fun _ => StatResult.notExist) 0 "p" "daily").1 rfl,
   (freshness_check_policy (fun _ => StatResult.ok 0) (24 * nsPerHour) "p" "daily").2.2.1 0
     rfl (by decide)⟩

end Tctl

namespace Tctl

/-! ## The docstring tag parser of the `internal/scanner` package. -/

/-- Character class `[\w-]` of the interface-line pattern. -/
def isWordDash (c : Char) : Bool :=
  c.isAlphanum || c = '_' || c = '-'

/-- Match the anchored pattern of an interface line against the
trimmed character list: two dashes, a non-empty `[\w-]+` run, a colon,
then `\s*` followed by a non-empty tail (with the usual backtracking:
when everything after the colon is white space, the capture is the
last space).  Returns the captured name (with its leading dashes) and
the captured tail. -/
def matchInterfaceHead (l : List Char) : Option (List Char × List Char) :=
  match l with
  | '-' :: '-' :: rest =>
    let nm := rest.takeWhile isWordDash
    if nm = [] then none
    else
      match rest.drop nm.length with
      | ':' :: rest2 =>
        match rest2.dropWhile isGoSpace with
        | [] =>
          match rest2 with
          | [] => none
          | c :: cs => some ('-' :: '-' :: nm, [(c :: cs).getLast (by simp)])
        | d :: ds => some ('-' :: '-' :: nm, d :: ds)
      | _ => none
  | _ => none

/-- Model of `parseInterfaceLine`: parse `--name: type, modifiers - description`.
A line that does not match the leading pattern is dropped (`none`).
The spec part before a `" - "` separator is comma-separated: the first
token is the type, a later token `required` sets the flag, a later
token `default=VALUE` sets the default (the last one winning). -/
def parseInterfaceLine (line : String) : Option Arg :=
  match matchInterfaceHead (goTrim line).data with
  | none => none
  | some (nm, restChars) =>
    let rest : String := String.mk restChars
    let sep : String := " - "
    let specPart : String :=
      match indexOfChars rest.data sep.data with
      | some idx => goTakeStr rest idx
      | none => rest
    let description : String :=
      match indexOfChars rest.data sep.data with
      | some idx => goDropStr rest (idx + 3)
      | none => ""
    let parts : List String := (splitCharList ',' specPart.data).map String.mk
    let argType : String :=
      match parts with
      | [] => "string"
      | p0 :: _ => goTrim p0
    let required : Bool := (parts.drop 1).any (fun p => goTrim p = "required")
    let defaultVal : String :=
      (((parts.drop 1).filterMap (fun p =>
        if goHasPre (goTrim p) "default=" then some (goDropStr (goTrim p) 8)
        else none)).getLast?).getD ""
    some { Name := String.mk nm, ArgType := argType, Required := required,
           Default := defaultVal, Description := goTrim description }

/-- State of the line loop of `parseDocstringTags`: the tool being
filled in, the `inInterface` flag, and the collected candidate
description lines. -/
structure ParseSt where
  tool : Tool
  inInterface : Bool
  descLines : List String
deriving Repr, DecidableEq


/-- Update the Name field of the tool in the state (the `@tool` case). -/
def updName (st : ParseSt) (v : String) : ParseSt :=
  { st with tool := { st.tool with Name := v } }

/-- Update the Version field (the `@version` case). -/
def updVersion (st : ParseSt) (v : String) : ParseSt :=
  { st with tool := { st.tool with Version := v } }

/-- Append whitespace-separated items to Provides (the `@provides` case). -/
def updProvides (st : ParseSt) (items : List String) : ParseSt :=
  { st with tool := { st.tool with Provides := st.tool.Provides ++ items } }

/-- Append whitespace-separated items to Requires (the `@requires` case). -/
def updRequires (st : ParseSt) (items : List String) : ParseSt :=
  { st with tool := { st.tool with Requires := st.tool.Requires ++ items } }

/-- Update the Output field (the `@output` case). -/
def updOutput (st : ParseSt) (v : String) : ParseSt :=
  { st with tool := { st.tool with Output := v } }

/-- Update the Freshness field (the `@freshness` case). -/
def updFreshness (st : ParseSt) (v : String) : ParseSt :=
  { st with tool := { st.tool with Freshness := v } }

/-- Append one capability line (the `@capability` case). -/
def updCapability (st : ParseSt) (v : String) : ParseSt :=
  { st with tool := { st.tool with Capabilities := st.tool.Capabilities ++ [v] } }

/-- Append one boundary line (the `@boundary` case). -/
def updBoundary (st : ParseSt) (v : String) : ParseSt :=
  { st with tool := { st.tool with Boundaries := st.tool.Boundaries ++ [v] } }

/-- Append split keywords (the `@keywords` case). -/
def updKeywords (st : ParseSt) (items : List String) : ParseSt :=
  { st with tool := { st.tool with Keywords := st.tool.Keywords ++ items } }

/-- Append one example line (the `@example` case). -/
def updExample (st : ParseSt) (v : String) : ParseSt :=
  { st with tool := { st.tool with Examples := st.tool.Examples ++ [v] } }

/-- Insert a parsed interface argument (a `--` line in an open
interface block). -/
def updInterface (st : ParseSt) (arg : Arg) : ParseSt :=
  { st with tool := { st.tool with Interface := mapInsert st.tool.Interface arg.Name arg } }

/-- The `switch` of `parseDocstringTags`, reached when the line is not
consumed by an open interface block: the ordered tag-prefix cases,
then the description-candidate default.  Each case updates exactly the
field its Go counterpart assigns or appends to. -/
def tagSwitch (st : ParseSt) (trimmed : String) : ParseSt :=
  if goHasPre trimmed "@tool " then
    updName st (goTrim (goDropStr trimmed 6))
  else if goHasPre trimmed "@version " then
    updVersion st (goTrim (goDropStr trimmed 9))
  else if goHasPre trimmed "@provides " then
    updProvides st (goFields (goDropStr trimmed 10))
  else if goHasPre trimmed "@requires " then
    updRequires st (goFields (goDropStr trimmed 10))
  else if goHasPre trimmed "@output " then
    updOutput st (goTrim (goDropStr trimmed 8))
  else if goHasPre trimmed "@freshness " then
    updFreshness st (goTrim (goDropStr trimmed 11))
  else if goHasPre trimmed "@capability " then
    updCapability st (goTrim (goDropStr trimmed 12))
  else if goHasPre trimmed "@boundary " then
    updBoundary st (goTrim (goDropStr trimmed 10))
  else if goHasPre trimmed "@keywords " then
    updKeywords st (goKeywordTokens (goTrim (goDropStr trimmed 10)))
  else if goHasPre trimmed "@interface" then
    { st with inInterface := true }
  else if goHasPre trimmed "@example " then
    updExample st (goTrim (goDropStr trimmed 9))
  else if ¬ goHasPre trimmed "@" ∧ trimmed ≠ "" then
    if st.tool.Name = "" ∧ st.tool.Provides = [] then
      { st with descLines := st.descLines ++ [trimmed] }
    else st
  else st

/-- One iteration of the line loop: an open interface block consumes
`--` lines as argument specifications and skips other non-`@` lines;
an `@`-tag closes the block and is re-processed by the switch. -/
def tagStep (st : ParseSt) (line : String) : ParseSt :=
  let trimmed := goTrim line
  if st.inInterface then
    if goHasPre trimmed "--" then
      match parseInterfaceLine trimmed with
      | some arg => updInterface st arg
      | none => st
    else if goHasPre trimmed "@" then
      tagSwitch { st with inInterface := false } trimmed
    else st
  else
    tagSwitch st trimmed

/-- Initial parser state: freshness defaults to `"manual"`, everything
else empty. -/
def initParseSt : ParseSt :=
  ⟨{ Freshness := "manual", Interface := [] }, false, []⟩

/-- The description assignment after the loop: two or more candidate
lines — the second; exactly one — that one; none — leave empty. -/
def finishDesc (st : ParseSt) : Tool :=
  match st.descLines with
  | [] => st.tool
  | [d] => { st.tool with Description := d }
  | _ :: d :: _ => { st.tool with Description := d }

/-- Model of `parseDocstringTags` on a list of lines: fold the loop, then set
the description. -/
def parseTagLines (lines : List String) : Tool :=
  finishDesc (lines.foldl tagStep initParseSt)

/-- Model of `parseDocstringTags`: the Go function takes the docstring text and
splits it on newlines. -/
def parseDocstringTags (docstring : String) : Tool :=
  parseTagLines (splitLines docstring)

end Tctl

namespace Tctl

/-! ## Prefix reasoning helpers for the parser proofs. -/

theorem ne_true_of_eq_false {b : Bool} (h : b = false) : ¬ b = true := by
  rw [h]
  exact Bool.false_ne_true

theorem isPrefixOf_cons_true_iff {a c : Char} {p cs : List Char} :
    ((a :: p).isPrefixOf (c :: cs) = true) ↔ (a = c ∧ p.isPrefixOf cs = true) := by
  simp [List.isPrefixOf]

theorem isPrefixOf_head_sub {a : Char} {p l : List Char}
    (hp : (a :: p).isPrefixOf l = true) : [a].isPrefixOf l = true := by
  cases l with
  | nil => simp [List.isPrefixOf] at hp
  | cons c cs =>
    rw [isPrefixOf_cons_true_iff] at hp ⊢
    exact ⟨hp.1, by simp [List.isPrefixOf]⟩

theorem isPrefixOf_head_clash {a b : Char} {p q l : List Char} (hab : a ≠ b)
    (hp : (a :: p).isPrefixOf l = true) : (b :: q).isPrefixOf l = false := by
  cases l with
  | nil => simp [List.isPrefixOf] at hp
  | cons c cs =>
    rw [isPrefixOf_cons_true_iff] at hp
    cases hbq : (b :: q).isPrefixOf (c :: cs) with
    | false => rfl
    | true =>
      rw [isPrefixOf_cons_true_iff] at hbq
      exact absurd (hp.1.trans hbq.1.symm) hab

theorem isPrefixOf_clash2 {a b c : Char} {p q l : List Char} (hbc : b ≠ c)
    (hp : (a :: b :: p).isPrefixOf l = true) : (a :: c :: q).isPrefixOf l = false := by
  cases l with
  | nil => simp [List.isPrefixOf] at hp
  | cons d ds =>
    rw [isPrefixOf_cons_true_iff] at hp
    cases hq : (a :: c :: q).isPrefixOf (d :: ds) with
    | false => rfl
    | true =>
      rw [isPrefixOf_cons_true_iff] at hq
      have hfalse : (c :: q).isPrefixOf ds = false := isPrefixOf_head_clash hbc hp.2
      rw [hq.2] at hfalse
      exact absurd hfalse (by decide)

/-- A string not starting with `@` starts with no `@`-tag. -/
theorem not_at_no_atTag {t : String} {p : List Char}
    (hAt : goHasPre t "@" = false) : ('@' :: p).isPrefixOf t.data = false := by
  cases h : ('@' :: p).isPrefixOf t.data with
  | false => rfl
  | true =>
    have h2 : goHasPre t "@" = true := isPrefixOf_head_sub h
    rw [hAt] at h2
    exact absurd h2 (by decide)

end Tctl

namespace Tctl

/-- Master projection lemma for the switch: in one pass over the
priority chain, how each component of the state relevant to the claims
changes — the Name tracks `@tool` lines, the Description is never
touched, the interface flag tracks `@interface` lines, the Provides
list tracks `@provides` lines, and a candidate description line is
appended exactly when the line is non-empty, not an `@` line, and both
the name and the provides list are still unset. -/
theorem tagSwitch_master (st : ParseSt) (trimmed : String) :
    (tagSwitch st trimmed).tool.Name =
        (if goHasPre trimmed "@tool " then goTrim (goDropStr trimmed 6)
         else st.tool.Name) ∧
    (tagSwitch st trimmed).tool.Description = st.tool.Description ∧
    (tagSwitch st trimmed).inInterface =
        (if goHasPre trimmed "@interface" then true else st.inInterface) ∧
    (tagSwitch st trimmed).tool.Provides =
        (if goHasPre trimmed "@provides " then
          st.tool.Provides ++ goFields (goDropStr trimmed 10)
         else st.tool.Provides) ∧
    (tagSwitch st trimmed).descLines =
        st.descLines ++
          (if ¬ goHasPre trimmed "@" ∧ trimmed ≠ "" ∧ st.tool.Name = "" ∧
              st.tool.Provides = [] then [trimmed] else []) := by
  unfold tagSwitch
  by_cases h1 : goHasPre trimmed "@tool " = true
  · have cI : goHasPre trimmed "@interface" = false := isPrefixOf_clash2 (by decide) h1
    have cP : goHasPre trimmed "@provides " = false := isPrefixOf_clash2 (by decide) h1
    have cAt : goHasPre trimmed "@" = true := isPrefixOf_head_sub h1
    rw [if_pos h1]
    exact ⟨by rw [if_pos h1]; try rfl, rfl, by rw [if_neg (ne_true_of_eq_false cI)]; try rfl,
      by rw [if_neg (ne_true_of_eq_false cP)]; try rfl,
      by rw [if_neg (fun hc => hc.1 cAt)]; exact (List.append_nil _).symm⟩
  · rw [if_neg h1]
    by_cases h2 : goHasPre trimmed "@version " = true
    · have cI : goHasPre trimmed "@interface" = false := isPrefixOf_clash2 (by decide) h2
      have cP : goHasPre trimmed "@provides " = false := isPrefixOf_clash2 (by decide) h2
      have cAt : goHasPre trimmed "@" = true := isPrefixOf_head_sub h2
      rw [if_pos h2]
      exact ⟨by rw [if_neg h1]; try rfl, rfl, by rw [if_neg (ne_true_of_eq_false cI)]; try rfl,
        by rw [if_neg (ne_true_of_eq_false cP)]; try rfl,
        by rw [if_neg (fun hc => hc.1 cAt)]; exact (List.append_nil _).symm⟩
    · rw [if_neg h2]
      by_cases h3 : goHasPre trimmed "@provides " = true
      · have cI : goHasPre trimmed "@interface" = false := isPrefixOf_clash2 (by decide) h3
        have cAt : goHasPre trimmed "@" = true := isPrefixOf_head_sub h3
        rw [if_pos h3]
        exact ⟨by rw [if_neg h1]; try rfl, rfl, by rw [if_neg (ne_true_of_eq_false cI)]; try rfl,
          by rw [if_pos h3]; try rfl,
          by rw [if_neg (fun hc => hc.1 cAt)]; exact (List.append_nil _).symm⟩
      · rw [if_neg h3]
        by_cases h4 : goHasPre trimmed "@requires " = true
        · have cI : goHasPre trimmed "@interface" = false := isPrefixOf_clash2 (by decide) h4
          have cAt : goHasPre trimmed "@" = true := isPrefixOf_head_sub h4
          rw [if_pos h4]
          exact ⟨by rw [if_neg h1]; try rfl, rfl, by rw [if_neg (ne_true_of_eq_false cI)]; try rfl,
            by rw [if_neg h3]; try rfl,
            by rw [if_neg (fun hc => hc.1 cAt)]; exact (List.append_nil _).symm⟩
        · rw [if_neg h4]
          by_cases h5 : goHasPre trimmed "@output " = true
          · have cI : goHasPre trimmed "@interface" = false := isPrefixOf_clash2 (by decide) h5
            have cAt : goHasPre trimmed "@" = true := isPrefixOf_head_sub h5
            rw [if_pos h5]
            exact ⟨by rw [if_neg h1]; try rfl, rfl, by rw [if_neg (ne_true_of_eq_false cI)]; try rfl,
              by rw [if_neg h3]; try rfl,
              by rw [if_neg (fun hc => hc.1 cAt)]; exact (List.append_nil _).symm⟩
          · rw [if_neg h5]
            by_cases h6 : goHasPre trimmed "@freshness " = true
            · have cI : goHasPre trimmed "@interface" = false :=
                isPrefixOf_clash2 (by decide) h6
              have cAt : goHasPre trimmed "@" = true := isPrefixOf_head_sub h6
              rw [if_pos h6]
              exact ⟨by rw [if_neg h1]; try rfl, rfl,
                by rw [if_neg (ne_true_of_eq_false cI)]; try rfl,
                by rw [if_neg h3]; try rfl,
                by rw [if_neg (fun hc => hc.1 cAt)]; exact (List.append_nil _).symm⟩
            · rw [if_neg h6]
              by_cases h7 : goHasPre trimmed "@capability " = true
              · have cI : goHasPre trimmed "@interface" = false :=
                  isPrefixOf_clash2 (by decide) h7
                have cAt : goHasPre trimmed "@" = true := isPrefixOf_head_sub h7
                rw [if_pos h7]
                exact ⟨by rw [if_neg h1]; try rfl, rfl,
                  by rw [if_neg (ne_true_of_eq_false cI)]; try rfl,
                  by rw [if_neg h3]; try rfl,
                  by rw [if_neg (fun hc => hc.1 cAt)]; exact (List.append_nil _).symm⟩
              · rw [if_neg h7]
                by_cases h8 : goHasPre trimmed "@boundary " = true
                · have cI : goHasPre trimmed "@interface" = false :=
                    isPrefixOf_clash2 (by decide) h8
                  have cAt : goHasPre trimmed "@" = true := isPrefixOf_head_sub h8
                  rw [if_pos h8]
                  exact ⟨by rw [if_neg h1]; try rfl, rfl,
                    by rw [if_neg (ne_true_of_eq_false cI)]; try rfl,
                    by rw [if_neg h3]; try rfl,
                    by rw [if_neg (fun hc => hc.1 cAt)]; exact (List.append_nil _).symm⟩
                · rw [if_neg h8]
                  by_cases h9 : goHasPre trimmed "@keywords " = true
                  · have cI : goHasPre trimmed "@interface" = false :=
                      isPrefixOf_clash2 (by decide) h9
                    have cAt : goHasPre trimmed "@" = true := isPrefixOf_head_sub h9
                    rw [if_pos h9]
                    exact ⟨by rw [if_neg h1]; try rfl, rfl,
                      by rw [if_neg (ne_true_of_eq_false cI)]; try rfl,
                      by rw [if_neg h3]; try rfl,
                      by rw [if_neg (fun hc => hc.1 cAt)]; exact (List.append_nil _).symm⟩
                  · rw [if_neg h9]
                    by_cases h10 : goHasPre trimmed "@interface" = true
                    · have cAt : goHasPre trimmed "@" = true := isPrefixOf_head_sub h10
                      rw [if_pos h10]
                      exact ⟨by rw [if_neg h1]; try rfl, rfl, by rw [if_pos h10]; try rfl,
                        by rw [if_neg h3]; try rfl,
                        by rw [if_neg (fun hc => hc.1 cAt)]; exact (List.append_nil _).symm⟩
                    · rw [if_neg h10]
                      by_cases h11 : goHasPre trimmed "@example " = true
                      · have cAt : goHasPre trimmed "@" = true := isPrefixOf_head_sub h11
                        rw [if_pos h11]
                        exact ⟨by rw [if_neg h1]; try rfl, rfl, by rw [if_neg h10]; try rfl,
                          by rw [if_neg h3]; try rfl,
                          by rw [if_neg (fun hc => hc.1 cAt)]; exact (List.append_nil _).symm⟩
                      · rw [if_neg h11]
                        by_cases h12 : ¬ goHasPre trimmed "@" = true ∧ trimmed ≠ ""
                        · rw [if_pos h12]
                          by_cases h13 : st.tool.Name = "" ∧ st.tool.Provides = []
                          · rw [if_pos h13]
                            exact ⟨by rw [if_neg h1]; try rfl, rfl, by rw [if_neg h10]; try rfl,
                              by rw [if_neg h3]; try rfl,
                              by rw [if_pos ⟨h12.1, h12.2, h13.1, h13.2⟩]; try rfl⟩
                          · rw [if_neg h13]
                            exact ⟨by rw [if_neg h1]; try rfl, rfl, by rw [if_neg h10]; try rfl,
                              by rw [if_neg h3]; try rfl,
                              by rw [if_neg (fun hc => h13 ⟨hc.2.2.1, hc.2.2.2⟩)]
                                 exact (List.append_nil _).symm⟩
                        · rw [if_neg h12]
                          exact ⟨by rw [if_neg h1]; try rfl, rfl, by rw [if_neg h10]; try rfl,
                            by rw [if_neg h3]; try rfl,
                            by rw [if_neg (fun hc => h12 ⟨hc.1, hc.2.1⟩)]
                               exact (List.append_nil _).symm⟩

end Tctl


namespace Tctl

/-! ## Helper views of an `@tool` line. -/

/-- Whether the trimmed line carries an `@tool ` tag. -/
def isToolTag (line : String) : Bool :=
  goHasPre (goTrim line) "@tool "

/-- The trimmed value of an `@tool ` line. -/
def toolTagVal (line : String) : String :=
  goTrim (goDropStr (goTrim line) 6)

/-- How one line changes the tool name: the value of an `@tool` line
overwrites it (which can reset it to empty), anything else keeps it. -/
def nameAfter (current : String) (line : String) : String :=
  if isToolTag line then toolTagVal line else current

/-- The value of the last `@tool` line, or `""` when there is none. -/
def lastToolName (lines : List String) : String :=
  lines.foldl nameAfter ""

/-- How one line changes the interface flag: a non-`@` line inside an
open block keeps it open; otherwise an `@interface` line opens it and
any other line leaves it closed. -/
def ifaceAfter (iface : Bool) (line : String) : Bool :=
  if iface = true ∧ ¬ goHasPre (goTrim line) "@" = true then iface
  else if goHasPre (goTrim line) "@interface" then true
  else false

/-- How one line changes the provides list: an `@provides` line appends
its whitespace-separated items, anything else keeps it. -/
def providesAfter (current : List String) (line : String) : List String :=
  if goHasPre (goTrim line) "@provides " then
    current ++ goFields (goDropStr (goTrim line) 10)
  else current

/-- The candidate description lines collected by the parser: a line is
collected exactly when the parser is not inside an open interface
block, the trimmed line is non-empty and not an `@` line, and the name
and provides list are both still unset. -/
def candDescLines : Bool → String → List String → List String → List String
  | _, _, _, [] => []
  | iface, nameVal, provs, l :: rest =>
    (if iface = false ∧ ¬ goHasPre (goTrim l) "@" = true ∧ goTrim l ≠ "" ∧
        nameVal = "" ∧ provs = [] then [goTrim l] else []) ++
      candDescLines (ifaceAfter iface l) (nameAfter nameVal l) (providesAfter provs l) rest

/-- Master projection lemma for one loop iteration. -/
theorem tagStep_master (st : ParseSt) (line : String) :
    (tagStep st line).tool.Name = nameAfter st.tool.Name line ∧
    (tagStep st line).tool.Description = st.tool.Description ∧
    (tagStep st line).inInterface = ifaceAfter st.inInterface line ∧
    (tagStep st line).tool.Provides = providesAfter st.tool.Provides line ∧
    (tagStep st line).descLines =
      st.descLines ++
        (if st.inInterface = false ∧ ¬ goHasPre (goTrim line) "@" = true ∧
            goTrim line ≠ "" ∧ st.tool.Name = "" ∧ st.tool.Provides = []
         then [goTrim line] else []) := by
  cases hif : st.inInterface with
  | false =>
    have hstep : tagStep st line = tagSwitch st (goTrim line) := by
      unfold tagStep
      rw [hif]
      rw [if_neg (by decide)]
    obtain ⟨mN, mD, mI, mP, mDL⟩ := tagSwitch_master st (goTrim line)
    rw [hstep]
    refine ⟨by unfold nameAfter isToolTag toolTagVal; exact mN, mD, ?_,
      by unfold providesAfter; exact mP, ?_⟩
    · rw [mI, hif]
      have hrhs : ifaceAfter false line =
          if goHasPre (goTrim line) "@interface" = true then true else false := by
        unfold ifaceAfter
        rw [if_neg (show ¬((false : Bool) = true ∧ ¬ goHasPre (goTrim line) "@" = true) from
          fun hc => absurd hc.1 (by decide))]
      rw [hrhs]
    · rw [mDL]
      simp
  | true =>
    have hstep1 : tagStep st line =
        (if goHasPre (goTrim line) "--" then
          match parseInterfaceLine (goTrim line) with
          | some arg => updInterface st arg
          | none => st
        else if goHasPre (goTrim line) "@" then
          tagSwitch { st with inInterface := false } (goTrim line)
        else st) := by
      unfold tagStep
      rw [hif]
      rw [if_pos rfl]
    rw [hstep1]
    cases hd : goHasPre (goTrim line) "--" with
    | true =>
      rw [if_pos (show (true : Bool) = true from rfl)]
      have cA : goHasPre (goTrim line) "@" = false := isPrefixOf_head_clash (by decide) hd
      have cT : goHasPre (goTrim line) "@tool " = false := isPrefixOf_head_clash (by decide) hd
      have cP : goHasPre (goTrim line) "@provides " = false :=
        isPrefixOf_head_clash (by decide) hd
      have hrhs : ifaceAfter true line = true := by
        unfold ifaceAfter
        rw [if_pos ⟨rfl, ne_true_of_eq_false cA⟩]
      cases harg : parseInterfaceLine (goTrim line) with
      | some arg =>
        exact ⟨by unfold nameAfter isToolTag; rw [if_neg (ne_true_of_eq_false cT)]; try rfl,
          rfl, by rw [hrhs]; exact hif,
          by unfold providesAfter; rw [if_neg (ne_true_of_eq_false cP)]; try rfl,
          by rw [if_neg (fun hc => absurd hc.1 (by decide))]
             exact (List.append_nil _).symm⟩
      | none =>
        exact ⟨by unfold nameAfter isToolTag; rw [if_neg (ne_true_of_eq_false cT)],
          rfl, by rw [hrhs]; exact hif,
          by unfold providesAfter; rw [if_neg (ne_true_of_eq_false cP)],
          by rw [if_neg (fun hc => absurd hc.1 (by decide))]
             exact (List.append_nil _).symm⟩
    | false =>
      rw [if_neg (show ¬ (false : Bool) = true from by decide)]
      cases ha : goHasPre (goTrim line) "@" with
      | true =>
        rw [if_pos (show (true : Bool) = true from rfl)]
        obtain ⟨mN, mD, mI, mP, mDL⟩ :=
          tagSwitch_master ⟨st.tool, false, st.descLines⟩ (goTrim line)
        refine ⟨by unfold nameAfter isToolTag toolTagVal; exact mN, mD, ?_,
          by unfold providesAfter; exact mP, ?_⟩
        · rw [mI]
          have hrhs2 : ifaceAfter true line =
              if goHasPre (goTrim line) "@interface" = true then true else false := by
            unfold ifaceAfter
            rw [if_neg (show ¬((true : Bool) = true ∧ ¬ goHasPre (goTrim line) "@" = true)
              from fun hc => hc.2 ha)]
          rw [hrhs2]
        · rw [mDL]
          rw [if_neg (fun hc => hc.1 ha), if_neg (fun hc => absurd hc.1 (by decide))]
      | false =>
        rw [if_neg (show ¬ (false : Bool) = true from by decide)]
        have cT : goHasPre (goTrim line) "@tool " = false := not_at_no_atTag ha
        have cP : goHasPre (goTrim line) "@provides " = false := not_at_no_atTag ha
        refine ⟨by unfold nameAfter isToolTag; rw [if_neg (ne_true_of_eq_false cT)],
          rfl, ?_,
          by unfold providesAfter; rw [if_neg (ne_true_of_eq_false cP)],
          by rw [if_neg (fun hc => absurd hc.1 (by decide))]
             exact (List.append_nil _).symm⟩
        unfold ifaceAfter
        rw [if_pos (show (true : Bool) = true ∧ ¬ goHasPre (goTrim line) "@" = true from
          ⟨rfl, ne_true_of_eq_false ha⟩)]
        exact hif

end Tctl

namespace Tctl

theorem foldl_tagStep_name (lines : List String) :
    ∀ st : ParseSt, (List.foldl tagStep st lines).tool.Name =
      List.foldl nameAfter st.tool.Name lines := by
  induction lines with
  | nil => intro st; rfl
  | cons l rest ih =>
    intro st
    show (List.foldl tagStep (tagStep st l) rest).tool.Name = _
    rw [ih (tagStep st l), (tagStep_master st l).1]
    rfl

theorem foldl_tagStep_description (lines : List String) :
    ∀ st : ParseSt, (List.foldl tagStep st lines).tool.Description = st.tool.Description := by
  induction lines with
  | nil => intro st; rfl
  | cons l rest ih =>
    intro st
    show (List.foldl tagStep (tagStep st l) rest).tool.Description = _
    rw [ih (tagStep st l), (tagStep_master st l).2.1]

theorem foldl_tagStep_descLines (lines : List String) :
    ∀ st : ParseSt, (List.foldl tagStep st lines).descLines =
      st.descLines ++ candDescLines st.inInterface st.tool.Name st.tool.Provides lines := by
  induction lines with
  | nil => intro st; simp [candDescLines]
  | cons l rest ih =>
    intro st
    obtain ⟨mN, -, mI, mP, mDL⟩ := tagStep_master st l
    show (List.foldl tagStep (tagStep st l) rest).descLines = _
    rw [ih (tagStep st l), mDL, mN, mI, mP]
    conv_rhs => rw [candDescLines]
    rw [List.append_assoc]

theorem parseTagLines_name (lines : List String) :
    (parseTagLines lines).Name = lastToolName lines := by
  have h := foldl_tagStep_name lines initParseSt
  unfold parseTagLines finishDesc lastToolName
  cases hm : (List.foldl tagStep initParseSt lines).descLines with
  | nil => exact h
  | cons d rest =>
    cases rest with
    | nil => exact h
    | cons d2 r => exact h

theorem parseTagLines_description (lines : List String) :
    (parseTagLines lines).Description =
      match candDescLines false "" [] lines with
      | [] => ""
      | [d] => d
      | _ :: d :: _ => d := by
  have hdl2 : (List.foldl tagStep initParseSt lines).descLines =
      candDescLines false "" [] lines := by
    rw [foldl_tagStep_descLines lines initParseSt]
    rfl
  unfold parseTagLines finishDesc
  rw [hdl2]
  cases hc : candDescLines false "" [] lines with
  | nil => exact foldl_tagStep_description lines initParseSt
  | cons d rest =>
    cases rest with
    | nil => rfl
    | cons d2 r => rfl

end Tctl

namespace Tctl

/-! ## The module docstring extractor `extractPythonDocstring`.

The Go function reads lines from the file; its `error` return can only
carry an I/O failure of the line scanner, which cannot occur on
in-memory content, so the error component of the model is always
`none` — this is itself proved below. -/

/-- The double-quote triple delimiter. -/
def tripleDQ : String := "\"\"\""

/-- A single-quote character (written by code point). -/
def sqChar : Char := Char.ofNat 39

/-- The single-quote triple delimiter. -/
def tripleSQ : String := String.mk [sqChar, sqChar, sqChar]

/-- The in-docstring part of the line loop: `#` lines are skipped, a
line containing the delimiter ends the docstring keeping the text
before the delimiter, anything else is accumulated; end of file
returns the accumulated lines as they are. -/
def extractLoop (delim : String) (acc : List String) : List String → List String
  | [] => acc
  | line :: rest =>
    if goHasPre (goTrim line) "#" then extractLoop delim acc rest
    else if goContains line delim then acc ++ [goTakeStr line (goIndex line delim)]
    else extractLoop delim (acc ++ [line]) rest

/-- Model of `extractPythonDocstring` on the file's lines: skip `#` lines, open
at the first triple-quote line (single-line docstrings are returned
directly with the trailing delimiter trimmed), give up on any other
non-blank line, and join the accumulated lines. -/
def extractPythonDocstring : List String → String × Option String
  | [] => ("", none)
  | line :: rest =>
    if goHasPre (goTrim line) "#" then extractPythonDocstring rest
    else if goHasPre (goTrim line) tripleDQ || goHasPre (goTrim line) tripleSQ then
      if goContains (goDropStr (goTrim line) 3) (goTakeStr (goTrim line) 3) then
        (goTrimSuffix (goDropStr (goTrim line) 3) (goTakeStr (goTrim line) 3), none)
      else
        (joinNL (extractLoop (goTakeStr (goTrim line) 3)
          [goDropStr (goTrim line) 3] rest), none)
    else if goTrim line ≠ "" then ("", none)
    else extractPythonDocstring rest

/-- Model of `PythonScanner.Scan` for one file: unreadable file — error;
otherwise extract the docstring, return absence for an empty docstring
or an empty name, else the descriptor with its file and language. -/
def pythonScan (path : String) (readable : Bool) (content : List String) :
    Except String (Option Tool) :=
  if readable = false then Except.error "open failed"
  else
    match extractPythonDocstring content with
    | (_, some e) => Except.error e
    | (docstring, none) =>
      if docstring = "" then Except.ok none
      else
        if (parseDocstringTags docstring).Name = "" then Except.ok none
        else Except.ok (some { parseDocstringTags docstring with
          File := path, Language := "python" })

/-- The extractor's error component is always absent. -/
theorem extract_err_none : ∀ content, (extractPythonDocstring content).2 = none := by
  intro content
  induction content with
  | nil => rfl
  | cons line rest ih =>
    unfold extractPythonDocstring
    split_ifs <;> first | rfl | exact ih

/-- All-candidate foldl of `nameAfter` over lines with no `@tool` tag
keeps the accumulator. -/
theorem foldl_nameAfter_no_tool {lines : List String}
    (h : ∀ l ∈ lines, isToolTag l = false) :
    ∀ acc, List.foldl nameAfter acc lines = acc := by
  induction lines with
  | nil => intro acc; rfl
  | cons l rest ih =>
    intro acc
    have hl := h l (List.mem_cons_self l rest)
    show List.foldl nameAfter (nameAfter acc l) rest = acc
    rw [ih (fun x hx => h x (List.mem_cons_of_mem l hx))]
    unfold nameAfter
    rw [if_neg (ne_true_of_eq_false hl)]

/-- Lines with no `@tool` tag give an empty last tool name. -/
theorem lastToolName_empty {lines : List String}
    (h : ∀ l ∈ lines, isToolTag l = false) : lastToolName lines = "" :=
  foldl_nameAfter_no_tool h ""

end Tctl

namespace Tctl

/-- C3 counterexample: a block containing the line `@tool a` (with
non-empty trimmed value `a`) whose parsed descriptor is nonetheless
named `b`, because a later `@tool b` line overwrites the name — the
claim as stated requires the name to equal `a`. -/
theorem parse_tool_name_counterexample :
    ("@tool a" ∈ splitLines "@tool a\n@tool b") ∧
      isToolTag "@tool a" = true ∧ toolTagVal "@tool a" = "a" ∧
      (parseDocstringTags "@tool a\n@tool b").Name = "b" ∧ ("b" : String) ≠ "a" :=
  ⟨by decide, by decide, by decide, by decide, by decide⟩

/-- C3 (amended).  Parsing a documentation block yields a descriptor
whose name is the trimmed value of the **last** `@tool` line (empty
when there is none); a file whose extracted block has no `@tool` line
scans to absence (`ok none`, not an error); and when the last `@tool`
value is non-empty the scan yields the descriptor. -/
theorem parse_tool_name_rule (content : List String) (path : String) :
    (parseDocstringTags (extractPythonDocstring content).1).Name =
        lastToolName (splitLines (extractPythonDocstring content).1) ∧
    ((∀ l ∈ splitLines (extractPythonDocstring content).1, isToolTag l = false) →
        pythonScan path true content = Except.ok none) ∧
    (lastToolName (splitLines (extractPythonDocstring content).1) ≠ "" →
        pythonScan path true content =
          Except.ok (some { parseDocstringTags (extractPythonDocstring content).1 with
            File := path, Language := "python" })) := by
  cases hx : extractPythonDocstring content with
  | mk doc err =>
    have herr : err = none := by
      have h2 := extract_err_none content
      rw [hx] at h2
      exact h2
    subst herr
    refine ⟨parseTagLines_name _, ?_, ?_⟩
    · intro h
      unfold pythonScan
      rw [if_neg (show ¬((true : Bool) = false) from by decide)]
      simp only [hx]
      by_cases hdoc : doc = ""
      · rw [if_pos hdoc]
      · rw [if_neg hdoc]
        have hname : (parseDocstringTags doc).Name = "" := by
          have e1 : (parseDocstringTags doc).Name = lastToolName (splitLines doc) :=
            parseTagLines_name (splitLines doc)
          rw [e1]
          exact lastToolName_empty (fun l hl => h l hl)
        rw [if_pos hname]
    · intro hname
      unfold pythonScan
      rw [if_neg (show ¬((true : Bool) = false) from by decide)]
      simp only [hx]
      have hdoc : doc ≠ "" := by
        intro hd
        subst hd
        exact hname (by decide)
      rw [if_neg hdoc]
      have hN : (parseDocstringTags doc).Name ≠ "" := by
        have e1 : (parseDocstringTags doc).Name = lastToolName (splitLines doc) :=
          parseTagLines_name (splitLines doc)
        rw [e1]
        exact fun hh => hname hh
      rw [if_neg hN]

/-- Witness for C3 on a concrete file with a docstring declaring
`@tool demo`: the scan yields the descriptor. -/
theorem parse_tool_name_rule_witness :
    pythonScan "demo.py" true ["\"\"\"", "@tool demo", "\"\"\""] =
      Except.ok (some { parseDocstringTags
        (extractPythonDocstring ["\"\"\"", "@tool demo", "\"\"\""]).1 with
        File := "demo.py", Language := "python" }) :=
  (parse_tool_name_rule ["\"\"\"", "@tool demo", "\"\"\""] "demo.py").2.2 (by decide)

/-- C6 counterexample: in the block `@interface` / `some text` /
`@tool x`, the line `some text` is non-empty, does not start with `@`,
and appears while the tool name is unset and the provides list is
empty — so the claim mandates description `some text` — but the line
is consumed by the open interface block and the parsed description is
empty. -/
theorem parse_description_counterexample :
    (parseTagLines ["@interface", "some text", "@tool x"]).Name = "x" ∧
      (parseTagLines ["@interface", "some text", "@tool x"]).Description = "" ∧
      ("" : String) ≠ "some text" :=
  ⟨by decide, by decide, by decide⟩

/-- C6 (amended).  The candidate description lines are exactly the
non-empty lines not starting with `@` that appear while the tool name
is unset, the provides list is empty, **and** the parser is not inside
an open interface block (`candDescLines`, whose per-line state follows
`ifaceAfter`/`nameAfter`/`providesAfter`); the description is the
second candidate if two or more were collected, the sole candidate if
exactly one, and empty if none. -/
theorem parse_description_rule (docstring : String) :
    (parseDocstringTags docstring).Description =
      match candDescLines false "" [] (splitLines docstring) with
      | [] => ""
      | [d] => d
      | _ :: d :: _ => d :=
  parseTagLines_description (splitLines docstring)

/-- Closing the loop on a docstring with no closing delimiter and no
`#` or delimiter-bearing lines: everything is accumulated. -/
theorem extractLoop_no_close (delim : String) :
    ∀ (rest acc : List String),
      (∀ l ∈ rest, goHasPre (goTrim l) "#" = false ∧ goContains l delim = false) →
      extractLoop delim acc rest = acc ++ rest := by
  intro rest
  induction rest with
  | nil => intro acc _; simp [extractLoop]
  | cons l r ih =>
    intro acc h
    have hl := h l (List.mem_cons_self l r)
    unfold extractLoop
    rw [if_neg (ne_true_of_eq_false hl.1), if_neg (ne_true_of_eq_false hl.2)]
    rw [ih (acc ++ [l]) (fun x hx => h x (List.mem_cons_of_mem l hx))]
    simp

/-- C7 counterexample: the extraction of a file whose docstring is
never closed equals, component for component (text and error channel),
the extraction of a well-formed file — so no distinct "unterminated"
condition is exposed to the caller, contrary to the claim. -/
theorem extract_unterminated_counterexample :
    extractPythonDocstring ["\"\"\"", "hello", ""] =
        extractPythonDocstring ["\"\"\"", "hello", "\"\"\""] ∧
      extractPythonDocstring ["\"\"\"", "hello", ""] = ("\nhello\n", none) :=
  ⟨by decide, by decide⟩

/-- C7 (amended).  When a documentation-block delimiter opens and is
never closed before end of file, extraction returns the accumulated
lines joined as a best-effort result with no error — a result
indistinguishable from that of a well-formed block; no distinct
"unterminated" condition is exposed. -/
theorem extract_unterminated_best_effort (line : String) (rest : List String)
    (hopen : goHasPre (goTrim line) tripleDQ = true ∨ goHasPre (goTrim line) tripleSQ = true)
    (hnosingle : goContains (goDropStr (goTrim line) 3) (goTakeStr (goTrim line) 3) = false)
    (hrest : ∀ l ∈ rest, goHasPre (goTrim l) "#" = false ∧
      goContains l (goTakeStr (goTrim line) 3) = false) :
    extractPythonDocstring (line :: rest) =
      (joinNL (goDropStr (goTrim line) 3 :: rest), none) := by
  have hnothash : goHasPre (goTrim line) "#" = false := by
    rcases hopen with h | h
    · exact isPrefixOf_head_clash (by decide) h
    · exact isPrefixOf_head_clash (by decide) h
  unfold extractPythonDocstring
  rw [if_neg (ne_true_of_eq_false hnothash)]
  rw [if_pos (show (goHasPre (goTrim line) tripleDQ || goHasPre (goTrim line) tripleSQ)
    = true from by rcases hopen with h | h <;> simp [h])]
  rw [if_neg (ne_true_of_eq_false hnosingle)]
  rw [extractLoop_no_close (goTakeStr (goTrim line) 3) rest
    [goDropStr (goTrim line) 3] hrest]
  rw [List.singleton_append]

/-- Witness for C7 on a concrete unterminated file. -/
theorem extract_unterminated_best_effort_witness :
    extractPythonDocstring ["\"\"\"", "hello"] = ("\nhello", none) := by
  rw [extract_unterminated_best_effort "\"\"\"" ["hello"] (Or.inl (by decide)) (by decide)
    (by decide)]
  decide

end Tctl

namespace Tctl

/-! ## The directory scanner (`ScanDirectories`).

The filesystem is a tree of entries; a file carries a readability flag
(an `os.Open` failure) and its content.  Go's `filepath.Walk` feeds
every entry to the callback; the callback in `ScanDirectories` prunes
excluded directories with `SkipDir`, skips private files and files
with unsupported extensions, and swallows every per-file error and
every nil per-file result; the walk's own return value is discarded
and the function literally returns `(registry, nil)`.  A directory
read failure reaches the callback as an error and is likewise
absorbed (`if err != nil return nil`). -/

/-- One filesystem entry. -/
inductive FsEntry where
  | file (name : String) (readable : Bool) (content : List String)
  | dir (name : String) (entries : List FsEntry)
deriving Repr

/-- The fixed exclusion set `skipDirs`. -/
def skipDirs : List String :=
  [".venv", "venv", ".env", "env", "node_modules", "__pycache__", ".git", ".tox",
   ".nox", ".mypy_cache", ".pytest_cache", "dist", "build", ".eggs", "site-packages"]

/-- Model of `shouldSkipDir`: the exclusion set plus the `.egg-info` suffix. -/
def shouldSkipDir (name : String) : Bool :=
  skipDirs.contains name || goHasSuf name ".egg-info"

/-- Model of `SupportedExtensions`: the one registered scanner handles `.py`. -/
def SupportedExtensions : List String := [".py"]

/-- Go `filepath.Ext`: the suffix beginning at the final dot of the
last path element, empty when there is none. -/
def goExt (path : String) : String :=
  let revc := path.data.reverse
  let pre := revc.takeWhile (fun c => ¬ c = '.' ∧ ¬ c = '/')
  match revc.drop pre.length with
  | '.' :: _ => String.mk ('.' :: pre.reverse)
  | _ => ""

/-- Whether a file name is private (starts with `_` or `.`). -/
def isPrivateName (name : String) : Bool :=
  match name.data with
  | [] => false
  | c :: _ => c = '_' || c = '.'

mutual
/-- The walk with the `ScanDirectories` callback inlined: excluded
directories are pruned, private and foreign-extension files skipped,
scan errors and nil results absorbed, and discovered tools added. -/
def scanTree : FsEntry → String → Registry → Registry
  | FsEntry.file name readable content, pre, reg =>
    if isPrivateName name then reg
    else if ¬ SupportedExtensions.contains
        (goExt (if pre = "" then name else pre ++ "/" ++ name)) = true then reg
    else
      match pythonScan (if pre = "" then name else pre ++ "/" ++ name) readable content with
      | Except.error _ => reg
      | Except.ok none => reg
      | Except.ok (some t) => reg.Add t
  | FsEntry.dir name entries, pre, reg =>
    if shouldSkipDir name then reg
    else scanTreeList entries (if pre = "" then name else pre ++ "/" ++ name) reg

/-- Walk the children of a directory in order. -/
def scanTreeList : List FsEntry → String → Registry → Registry
  | [], _, reg => reg
  | e :: es, pre, reg => scanTreeList es pre (scanTree e pre reg)
end

/-- Model of `ScanDirectories`: each root is either absent (`os.Stat` reports
not-exist — silently skipped) or a tree; the error component of the
result is the literal `nil` of the Go `return registry, nil`. -/
def ScanDirectories (roots : List (Option FsEntry)) : Registry × Option String :=
  (roots.foldl (fun reg root =>
    match root with
    | none => reg
    | some e => scanTree e "" reg) NewRegistry, none)

/-- Model of `ScanDirectory` scans a single root. -/
def ScanDirectory (root : Option FsEntry) : Registry × Option String :=
  ScanDirectories [root]

/-- C9.  `ScanDirectories` (and `ScanDirectory`) returns an absent
error for every input; a non-existent root leaves the result
unchanged; and an unreadable file — whose scan returns an error — is
absorbed without affecting the registry, as are nil per-file results,
so one bad file never aborts the scan. -/
theorem scanDirectories_never_errors :
    (∀ roots, (ScanDirectories roots).2 = none) ∧
    (∀ roots, ScanDirectories (none :: roots) = ScanDirectories roots) ∧
    (∀ name content pre reg, scanTree (FsEntry.file name false content) pre reg = reg) ∧
    (∀ root, (ScanDirectory root).2 = none) := by
  refine ⟨fun roots => rfl, fun roots => rfl, ?_, fun root => rfl⟩
  intro name content pre reg
  unfold scanTree
  split_ifs <;> rfl

end Tctl
